import Mathlib

/-!
Verification development for gitfeed.py, a script that clones a repository,
renders its directory tree as text, and concatenates all file contents into
one output file subject to extension and size filters.

Strings from the Python source are modelled as `List Char` (Python strings
are sequences of Unicode code points, so `List Char` matches; comparisons in
the source are code-point comparisons).  The filesystem seen by the script is
modelled as a tree of named nodes: a file node carries the data the script
can observe about it — its name, the result of `os.path.getsize` (`none`
when the stat raises `OSError`), and the result of opening and reading it as
UTF-8 text (`Except.error msg` when `open`/`read` raises, carrying the
exception message; Python's `read()` returns the whole text or raises, so no
partial content exists on failure).  The float `--max-file-size` argument is
modelled as a rational number: multiplying an IEEE double by 1024*1024 = 2^20
is exact (an exponent shift), and Python's int/float comparison `file_size >
max_size_bytes` is an exact mathematical comparison, so the rational model
agrees with the source on every representable input.
-/

/-- A filesystem node as observed by gitfeed.py.  `file name fsize fread`:
`fsize` is the byte size reported by `os.path.getsize` (`none` = stat fails),
`fread` the result of reading the file as UTF-8 text (`Except.error msg` =
`open`/`read` raised an exception whose message is `msg`). -/
inductive FSTree where
  | file (name : List Char) (fsize : Option Nat) (fread : Except (List Char) (List Char))
  | dir (name : List Char) (children : List FSTree)

/-- Name of a filesystem node. -/
def FSTree.name : FSTree → List Char
  | .file n _ _ => n
  | .dir n _ => n

/-- Model of `os.path.isdir` on a node. -/
def isDirT : FSTree → Bool
  | .file _ _ _ => false
  | .dir _ _ => true

mutual
/-- Number of filesystem entries (files and directories) in a subtree,
counting the node itself. -/
def entryCount : FSTree → Nat
  | .file _ _ _ => 1
  | .dir _ cs => 1 + entryCountList cs
/-- Number of filesystem entries in a forest. -/
def entryCountList : List FSTree → Nat
  | [] => 0
  | c :: cs => entryCount c + entryCountList cs
end

/-- Python string `<=`: lexicographic comparison by Unicode code point.
This is the order used by `sorted(os.listdir(...))` in the source. -/
def charListLe : List Char → List Char → Bool
  | x :: xs, y :: ys =>
    if x.toNat < y.toNat then true
    else if y.toNat < x.toNat then false
    else charListLe xs ys
  | [], _ => true
  | _, [] => false

/-- Stable insertion of a node into a name-sorted list, placing the new
element before the first strictly larger one (and before equal names coming
from later in the original list, matching the stability of Python's
`sorted`). -/
def orderedInsert (x : FSTree) : List FSTree → List FSTree
  | [] => [x]
  | y :: ys => if charListLe x.name y.name then x :: y :: ys else y :: orderedInsert x ys

/-- Model of `sorted(os.listdir(start_path))` in `build_tree_lines`: the
children of a directory, sorted by name in code-point order.  A stable
insertion sort computes the same list as Python's stable `sorted` for any
total preorder, and names in one directory are distinct anyway. -/
def sortChildren : List FSTree → List FSTree
  | [] => []
  | c :: cs => orderedInsert c (sortChildren cs)

/-- Name order on two nodes: the Python string order on their names, used to
state the sortedness of a rendered sibling group. -/
def nameLe (a b : FSTree) : Prop := charListLe a.name b.name = true

/-- Connector chosen in `build_tree_lines`: `"└── "` for the last sibling
(`index == len(items) - 1`), `"├── "` otherwise. -/
def connectorFor (isLast : Bool) : List Char :=
  if isLast then "└── ".data else "├── ".data

/-- Prefix extension chosen in `build_tree_lines` for the children of a
directory: four spaces after a last sibling, `"│   "` otherwise. -/
def childExtension (isLast : Bool) : List Char :=
  if isLast then "    ".data else "│   ".data

/-- The loop body of `build_tree_lines` over the already-sorted sibling list:
for each item emit `pfx + connector + name` (files) or
`pfx + connector + name + "/"` followed by the recursively rendered children
(directories), where "last sibling" means the remaining list is empty. -/
def renderItems : List FSTree → List Char → List (List Char)
  | [], _ => []
  | item :: rest, pfx =>
    (match item with
     | FSTree.file n _ _ => [pfx ++ connectorFor rest.isEmpty ++ n]
     | FSTree.dir n cs2 =>
       (pfx ++ connectorFor rest.isEmpty ++ n ++ ['/']) ::
         renderItems (sortChildren cs2) (pfx ++ childExtension rest.isEmpty))
    ++ renderItems rest pfx
termination_by l _ => entryCountList l
decreasing_by
  · have h1 : ∀ (x : FSTree) (l : List FSTree),
        entryCountList (orderedInsert x l) = entryCount x + entryCountList l := by
      intro x l
      induction l with
      | nil => simp [orderedInsert, entryCountList]
      | cons y ys ih =>
        simp only [orderedInsert]
        split
        · rfl
        · simp only [entryCountList, ih]; omega
    have h2 : ∀ l : List FSTree, entryCountList (sortChildren l) = entryCountList l := by
      intro l
      induction l with
      | nil => rfl
      | cons y ys ih => simp only [sortChildren, h1, ih, entryCountList]
    simp only [h2, entryCountList, entryCount]
    omega
  · have h3 : ∀ t : FSTree, 1 ≤ entryCount t := by
      intro t
      cases t <;> simp [entryCount]
    have := h3 item
    simp only [entryCountList]
    omega

/-- Model of `build_tree_lines(start_path, prefix)`: sort the children of
the start directory, then render each with the connector and child-prefix
rules of the source. -/
def build_tree_lines (cs : List FSTree) (pfx : List Char) : List (List Char) :=
  renderItems (sortChildren cs) pfx

/-- Model of `generate_directory_tree(root_dir, repo_name)`: the caption
line, the root line `"└── <repo_name>/"`, then the tree lines of the root's
children indented by four spaces. -/
def generate_directory_tree (root : List FSTree) (repo_name : List Char) : List (List Char) :=
  "Directory structure:".data ::
    ("└── ".data ++ repo_name ++ ['/']) ::
      build_tree_lines root "    ".data

/-- Pairs each element of a sibling list with its is-last-sibling flag
(`index == len(items) - 1` in the source).  Used to state the per-sibling
block shape of the renderer. -/
def markLast : List FSTree → List (FSTree × Bool)
  | [] => []
  | [c] => [(c, true)]
  | c :: rest => (c, false) :: markLast rest

/-- The lines one sibling contributes to the rendering, phrased the way the
specification describes a TreeLine: connector by last-sibling flag, then for
directories the depth-first recursively rendered subtree with the extended
prefix. -/
def itemLines (pfx : List Char) (isLast : Bool) : FSTree → List (List Char)
  | FSTree.file n _ _ => [pfx ++ connectorFor isLast ++ n]
  | FSTree.dir n cs2 =>
    (pfx ++ connectorFor isLast ++ n ++ ['/']) ::
      renderItems (sortChildren cs2) (pfx ++ childExtension isLast)

/-- Python `str.lower()` on the ASCII range (the only case mapping the
source relies on: it is applied to file extensions).  `Char.toLower` is the
basic-latin case mapping, which agrees with Python on ASCII. -/
def pyLower (l : List Char) : List Char := l.map Char.toLower

/-- Normalization of one `--exclude-ext` argument (source lines 74-78): if
the extension does not start with `.`, prefix one; lower-case it in either
case. -/
def normalizeExt (e : List Char) : List Char :=
  if e.take 1 = ['.'] then pyLower e else '.' :: pyLower e

/-- Normalization of the whole `--exclude-ext` list. -/
def normalizeExts (raw : List (List Char)) : List (List Char) := raw.map normalizeExt

/-- The extension part of `os.path.splitext(name)` for a bare filename (no
path separator, which is what `os.walk` hands to the loop): the suffix
starting at the last dot, unless every character before that dot is itself a
dot (so `"Makefile"` and `".gitignore"` have extension `""`). -/
def splitextExt (name : List Char) : List Char :=
  let afterRev := name.reverse.takeWhile (fun c => c ≠ '.')
  if afterRev.length = name.length then []
  else
    let d := name.length - afterRev.length - 1
    if (name.take d).all (fun c => c = '.') then [] else name.drop d

/-- The exclusion options of one run: the (already normalized) excluded
extension list and the optional `--max-file-size` value in megabytes. -/
structure Policy where
  excluded : List (List Char)
  maxMB : Option ℚ

/-- What the per-file part of the main loop does with one file: skip for the
extension, skip because the stat failed, skip for the size, or write a block
whose body is the read result. -/
inductive FileEvent where
  | skippedExt (rel ext : List Char)
  | statFailed (rel : List Char)
  | skippedSize (rel : List Char) (size : Nat)
  | written (rel : List Char) (body : Except (List Char) (List Char))

/-- The per-file decision sequence of the main loop (source lines 115-143):
first the extension check (`if excluded_extensions and file_ext in
excluded_extensions`), then — only if a maximum size is configured — the
stat and the strict size comparison `file_size > max_file_size * 1024 *
1024`, and otherwise the write. -/
def processFile (pol : Policy) (rel fname : List Char) (sz : Option Nat)
    (rd : Except (List Char) (List Char)) : FileEvent :=
  let fext := pyLower (splitextExt fname)
  if pol.excluded ≠ [] ∧ fext ∈ pol.excluded then
    FileEvent.skippedExt rel fext
  else
    match pol.maxMB with
    | none => FileEvent.written rel rd
    | some m =>
      match sz with
      | none => FileEvent.statFailed rel
      | some s =>
        if (m * 1024 * 1024 : ℚ) < (s : ℚ) then FileEvent.skippedSize rel s
        else FileEvent.written rel rd

/-- Whether an event is an extension skip. -/
def isSkippedExt : FileEvent → Bool
  | FileEvent.skippedExt _ _ => true
  | _ => false

/-- Model of `dirs.remove(".git")` guarded by `if ".git" in dirs`: drop the
first directory named `.git` from the subdirectory list, if any. -/
def removeFirstGit : List FSTree → List FSTree
  | [] => []
  | d :: ds => if d.name = ".git".data then ds else d :: removeFirstGit ds

/-- One file as visited by the `os.walk` loop: the names of the directories
between the walk root and the file, the file's name, and its observed size
and read result. -/
structure VisitedFile where
  vdirs : List (List Char)
  vname : List Char
  vsize : Option Nat
  vread : Except (List Char) (List Char)

/-- Model of the `os.walk(tmpdirname)` loop with its `.git` pruning: for the
current directory, first every file (a top-down walk yields a directory's
own files before descending), then recursively every subdirectory except the
first one named `.git`, accumulating the directory components. -/
def walk (acc : List (List Char)) (cs : List FSTree) : List VisitedFile :=
  (cs.filterMap (fun c =>
    match c with
    | FSTree.file n sz rd => some ⟨acc, n, sz, rd⟩
    | FSTree.dir _ _ => none))
  ++ ((removeFirstGit (cs.filter isDirT)).attach.flatMap (fun d =>
      match _h : d.1 with
      | FSTree.dir n cs2 => walk (acc ++ [n]) cs2
      | FSTree.file _ _ _ => []))
termination_by entryCountList cs
decreasing_by
  have hmem1 : ∀ (l : List FSTree) (a : FSTree), a ∈ removeFirstGit l → a ∈ l := by
    intro l
    induction l with
    | nil => intro a ha; simp [removeFirstGit] at ha
    | cons x xs ih =>
      intro a ha
      simp only [removeFirstGit] at ha
      split at ha
      · exact List.mem_cons_of_mem _ ha
      · rcases List.mem_cons.mp ha with h1 | h1
        · exact h1 ▸ List.mem_cons_self _ _
        · exact List.mem_cons_of_mem _ (ih a h1)
  have hle : ∀ (a : FSTree) (l : List FSTree), a ∈ l → entryCount a ≤ entryCountList l := by
    intro a l
    induction l with
    | nil => intro ha; simp at ha
    | cons x xs ih =>
      intro ha
      rcases List.mem_cons.mp ha with h1 | h1
      · subst h1; simp only [entryCountList]; omega
      · have := ih h1; simp only [entryCountList]; omega
  have hd := d.2
  have h1 : d.1 ∈ cs.filter isDirT := hmem1 _ _ hd
  have h2 : d.1 ∈ cs := List.mem_of_mem_filter h1
  have h3 : entryCount d.1 ≤ entryCountList cs := hle _ _ h2
  rw [_h] at h3
  simp only [entryCount] at h3
  omega

/-- `os.path.relpath` for a file under the walk root: the directory
components and the filename joined with `/`. -/
def joinPath : List (List Char) → List Char
  | [] => []
  | [c] => c
  | c :: cs => c ++ '/' :: joinPath cs

/-- Relative path of a visited file. -/
def relPathOf (vf : VisitedFile) : List Char := joinPath (vf.vdirs ++ [vf.vname])

/-- The per-file decision applied to a visited file. -/
def processVF (pol : Policy) (vf : VisitedFile) : FileEvent :=
  processFile pol (relPathOf vf) vf.vname vf.vsize vf.vread

/-- The separator line written before and after the `File:` header. -/
def sepLine : List Char :=
  "========================".data ++ "========================".data

/-- The content section of a written block: the decoded text on success,
the one-line error notice `[!] Error reading file: <message>` (source line
142) on failure. -/
def bodyText : Except (List Char) (List Char) → List Char
  | Except.ok content => content
  | Except.error msg => "[!] Error reading file: ".data ++ msg ++ ['\n']

/-- The characters a single event makes the loop write to the contents
file, in the order of the source's `global_out.write` calls: separator,
header, separator, content section, two newline characters — and nothing at
all for a skipped file. -/
def eventOutput : FileEvent → List Char
  | FileEvent.written rel body =>
    (sepLine ++ ['\n']) ++ ("File: ".data ++ rel ++ ['\n']) ++ (sepLine ++ ['\n'])
      ++ bodyText body ++ ['\n', '\n']
  | _ => []

/-- The whole contents file produced by one run over the walked files,
written left to right exactly as the loop appends to the stream. -/
def runOutput (pol : Policy) (cs : List FSTree) : List Char :=
  (walk [] cs).foldl (fun out vf => out ++ eventOutput (processVF pol vf)) []

/-- One per-file block of the contents file as the specification describes
it: separator line, `File:` header line, separator line, content section,
two trailing newline characters. -/
def fileBlock (rel : List Char) (body : Except (List Char) (List Char)) : List Char :=
  sepLine ++ ['\n'] ++ ("File: ".data ++ rel ++ ['\n']) ++ sepLine ++ ['\n']
    ++ bodyText body ++ ['\n', '\n']

/-- Relative path and body of every file the run actually writes, in
output order. -/
def writtenList (pol : Policy) (cs : List FSTree) :
    List (List Char × Except (List Char) (List Char)) :=
  ((walk [] cs).map (processVF pol)).filterMap (fun ev =>
    match ev with
    | FileEvent.written rel body => some (rel, body)
    | _ => none)

/-- Python `url.rstrip("/")`: remove every trailing `/`. -/
def rstripSlashes (u : List Char) : List Char :=
  (u.reverse.dropWhile (fun c => c = '/')).reverse

/-- Python `url.split("/")`: split on every `/`, keeping empty segments
(`"".split("/") == [""]`). -/
def splitSlash : List Char → List (List Char)
  | [] => [[]]
  | c :: cs =>
    if c = '/' then [] :: splitSlash cs
    else
      match splitSlash cs with
      | [] => [[c]]
      | s :: rest => (c :: s) :: rest

/-- Last element of a segment list (`[-1]` in Python; `split` never returns
an empty list, so the default is never used). -/
def lastOf : List (List Char) → List Char
  | [] => []
  | [x] => x
  | _ :: xs => lastOf xs

/-- Drop a trailing `.git` from a segment
(`repo_name[:-4] if repo_name.endswith(".git")`). -/
def stripDotGit (seg : List Char) : List Char :=
  if seg.reverse.take 4 = ['t', 'i', 'g', '.'] then seg.take (seg.length - 4) else seg

/-- Model of `get_repo_name(url)` (source lines 8-17): strip trailing
slashes, take the last `/`-separated segment, strip a trailing `.git`. -/
def get_repo_name (url : List Char) : List Char :=
  stripDotGit (lastOf (splitSlash (rstripSlashes url)))

/-- The last path segment as the specification words it: the characters
after the last `/` (the whole string if there is none). -/
def lastSegment (u : List Char) : List Char :=
  (u.reverse.takeWhile (fun c => c ≠ '/')).reverse

/-- A directory forest is well formed when sibling names are distinct at
every level — true of any real directory tree, where `os.listdir` cannot
report the same name twice. -/
def wfForest : List FSTree → Bool
  | [] => true
  | FSTree.file n _ _ :: cs => !((cs.map FSTree.name).contains n) && wfForest cs
  | FSTree.dir n ds :: cs => !((cs.map FSTree.name).contains n) && wfForest ds && wfForest cs

/-- A concrete repository tree with a `.git` directory at the top level and
another one nested below `src`, used to exercise the `.git` pruning. -/
def gitSampleTree : List FSTree :=
  [ FSTree.dir ['s', 'r', 'c']
      [ FSTree.dir ['.', 'g', 'i', 't']
          [FSTree.file ['H', 'E', 'A', 'D'] (some 5) (Except.ok ['r'])],
        FSTree.file ['m', 'a', 'i', 'n'] (some 10) (Except.ok ['c']) ],
    FSTree.dir ['.', 'g', 'i', 't']
      [FSTree.file ['c', 'f', 'g'] (some 3) (Except.ok ['x'])],
    FSTree.file ['R', 'E', 'A', 'D'] (some 4) (Except.ok ['h']) ]

theorem entryCountList_orderedInsert (x : FSTree) (l : List FSTree) :
    entryCountList (orderedInsert x l) = entryCount x + entryCountList l := by
  induction l with
  | nil => simp [orderedInsert, entryCountList]
  | cons y ys ih =>
    simp only [orderedInsert]
    split
    · rfl
    · simp only [entryCountList, ih]; omega

theorem entryCountList_sortChildren (l : List FSTree) :
    entryCountList (sortChildren l) = entryCountList l := by
  induction l with
  | nil => rfl
  | cons y ys ih => simp only [sortChildren, entryCountList_orderedInsert, ih, entryCountList]

theorem renderItems_length (l : List FSTree) (pfx : List Char) :
    (renderItems l pfx).length = entryCountList l := by
  induction l, pfx using renderItems.induct with
  | case1 pfx => simp [renderItems, entryCountList]
  | case2 item rest pfx ih1 ih2 =>
    cases item with
    | file n sz rd =>
      simp [renderItems, entryCountList, entryCount, ih2]
      omega
    | dir n cs2 =>
      simp only [] at ih1
      simp [renderItems, entryCountList, entryCount, ih2, ih1, entryCountList_sortChildren]
      omega

theorem charListLe_total (a b : List Char) :
    charListLe a b = true ∨ charListLe b a = true := by
  induction a generalizing b with
  | nil => left; cases b <;> rfl
  | cons x xs ih =>
    cases b with
    | nil => right; rfl
    | cons y ys =>
      by_cases h1 : x.toNat < y.toNat
      · left; simp [charListLe, h1]
      · by_cases h2 : y.toNat < x.toNat
        · right; simp [charListLe, h2]
        · rcases ih ys with h3 | h3
          · left; simp [charListLe, h1, h2, h3]
          · right; simp [charListLe, h1, h2, h3]

theorem charListLe_trans (a b c : List Char) (hab : charListLe a b = true)
    (hbc : charListLe b c = true) : charListLe a c = true := by
  induction a generalizing b c with
  | nil => cases c <;> rfl
  | cons x xs ih =>
    cases b with
    | nil => simp [charListLe] at hab
    | cons y ys =>
      cases c with
      | nil => simp [charListLe] at hbc
      | cons z zs =>
        simp only [charListLe] at hab hbc ⊢
        by_cases h1 : x.toNat < y.toNat
        · by_cases h2 : y.toNat < z.toNat
          · rw [if_pos (by omega)]
          · by_cases h4 : z.toNat < y.toNat
            · rw [if_neg h2, if_pos h4] at hbc; simp at hbc
            · rw [if_pos (by omega)]
        · by_cases h3 : y.toNat < x.toNat
          · rw [if_neg h1, if_pos h3] at hab; simp at hab
          · by_cases h2 : y.toNat < z.toNat
            · rw [if_pos (by omega)]
            · by_cases h4 : z.toNat < y.toNat
              · rw [if_neg h2, if_pos h4] at hbc; simp at hbc
              · rw [if_neg h1, if_neg h3] at hab
                rw [if_neg h2, if_neg h4] at hbc
                rw [if_neg (by omega), if_neg (by omega)]
                exact ih ys zs hab hbc

theorem mem_orderedInsert (z x : FSTree) (l : List FSTree) :
    z ∈ orderedInsert x l ↔ z = x ∨ z ∈ l := by
  induction l with
  | nil => simp [orderedInsert]
  | cons y ys ih =>
    simp only [orderedInsert]
    split
    · simp [List.mem_cons]
    · simp only [List.mem_cons, ih]
      tauto

theorem orderedInsert_perm (x : FSTree) (l : List FSTree) :
    (orderedInsert x l).Perm (x :: l) := by
  induction l with
  | nil => simp [orderedInsert]
  | cons y ys ih =>
    simp only [orderedInsert]
    split
    · exact List.Perm.refl _
    · exact ((ih.cons y).trans (List.Perm.swap x y ys))

theorem sortChildren_perm (l : List FSTree) : (sortChildren l).Perm l := by
  induction l with
  | nil => exact List.Perm.refl _
  | cons y ys ih => exact (orderedInsert_perm y (sortChildren ys)).trans (ih.cons y)

theorem pairwise_orderedInsert (x : FSTree) (l : List FSTree)
    (h : l.Pairwise nameLe) : (orderedInsert x l).Pairwise nameLe := by
  induction l with
  | nil => simp [orderedInsert, nameLe]
  | cons y ys ih =>
    rcases List.pairwise_cons.mp h with ⟨hy, hys⟩
    simp only [orderedInsert]
    split
    · rename_i hxy
      refine List.pairwise_cons.mpr ⟨?_, h⟩
      intro z hz
      rcases List.mem_cons.mp hz with h1 | h1
      · exact h1 ▸ hxy
      · exact charListLe_trans _ _ _ hxy (hy z h1)
    · rename_i hxy
      refine List.pairwise_cons.mpr ⟨?_, ih hys⟩
      intro z hz
      rcases (mem_orderedInsert z x ys).mp hz with h1 | h1
      · rw [h1]
        rcases charListLe_total (FSTree.name x) (FSTree.name y) with h2 | h2
        · exact absurd h2 hxy
        · exact h2
      · exact hy z h1

theorem sortChildren_pairwise (l : List FSTree) : (sortChildren l).Pairwise nameLe := by
  induction l with
  | nil => simp [sortChildren]
  | cons y ys ih => exact pairwise_orderedInsert y _ ih

theorem markLast_cons (c : FSTree) (rest : List FSTree) :
    markLast (c :: rest) = (c, rest.isEmpty) :: markLast rest := by
  cases rest <;> rfl

/-- C3: the tree output has exactly one line per filesystem entry under the
root plus the two header lines (caption and root line), for every directory
tree. -/
theorem tree_line_count (root : List FSTree) (repo : List Char) :
    (generate_directory_tree root repo).length = entryCountList root + 2 := by
  simp [generate_directory_tree, build_tree_lines, renderItems_length,
    entryCountList_sortChildren]

/-- C4: in every rendered sibling group the last sibling gets the terminal
connector `└── ` and the others `├── `; a directory's subtree is emitted
depth-first immediately after its own line, with the parent prefix extended
by four spaces after a last sibling and by `│   ` otherwise.  Stated as: the
renderer loop equals, sibling group by sibling group, the flat concatenation
of per-sibling blocks built from the is-last flag. -/
theorem sibling_block_shape (items : List FSTree) (pfx : List Char) :
    renderItems items pfx = (markLast items).flatMap (fun p => itemLines pfx p.2 p.1)
    ∧ connectorFor true = "└── ".data ∧ connectorFor false = "├── ".data
    ∧ childExtension true = "    ".data ∧ childExtension false = "│   ".data := by
  refine ⟨?_, rfl, rfl, rfl, rfl⟩
  induction items with
  | nil => simp [renderItems, markLast]
  | cons c rest ih =>
    rw [markLast_cons]
    simp only [List.flatMap_cons, ← ih]
    cases c <;> simp [renderItems, itemLines]

/-- C8: the renderer lists every sibling group sorted lexicographically by
name, files and directories interleaved in that single order: the rendered
order is a permutation of all children that is pairwise ordered by the
code-point string order on names. -/
theorem siblings_sorted (cs : List FSTree) (pfx : List Char) :
    build_tree_lines cs pfx = renderItems (sortChildren cs) pfx
    ∧ (sortChildren cs).Pairwise nameLe
    ∧ (sortChildren cs).Perm cs :=
  ⟨rfl, sortChildren_pairwise cs, sortChildren_perm cs⟩

theorem char_toNat_ofNat (n : Nat) (h : n.isValidChar) : (Char.ofNat n).toNat = n := by
  simp [Char.ofNat, h, Char.ofNatAux, Char.toNat, UInt32.toNat, BitVec.toNat_ofNatLt]

theorem toLower_toLower (c : Char) : (Char.toLower c).toLower = Char.toLower c := by
  by_cases h : c.toNat ≥ 65 ∧ c.toNat ≤ 90
  · have hv : (c.toNat + 32).isValidChar := Or.inl (by omega)
    have ht := char_toNat_ofNat _ hv
    have h1 : Char.toLower c = Char.ofNat (c.toNat + 32) := by
      simp only [Char.toLower]
      rw [if_pos h]
    rw [h1]
    simp only [Char.toLower]
    rw [ht, if_neg (by omega)]
  · have h1 : Char.toLower c = c := by
      simp only [Char.toLower]
      rw [if_neg h]
    rw [h1, h1]

theorem toLower_eq_dot (c : Char) : Char.toLower c = '.' ↔ c = '.' := by
  constructor
  · intro h
    by_cases hc : c.toNat ≥ 65 ∧ c.toNat ≤ 90
    · exfalso
      have hv : (c.toNat + 32).isValidChar := Or.inl (by omega)
      have ht := char_toNat_ofNat _ hv
      have h1 : Char.toLower c = Char.ofNat (c.toNat + 32) := by
        simp only [Char.toLower]
        rw [if_pos hc]
      rw [h1] at h
      have h2 := congrArg Char.toNat h
      rw [ht] at h2
      have h3 : ('.' : Char).toNat = 46 := rfl
      omega
    · have h1 : Char.toLower c = c := by
        simp only [Char.toLower]
        rw [if_neg hc]
      rw [h1] at h
      exact h
  · intro h
    subst h
    decide

theorem pyLower_pyLower (l : List Char) : pyLower (pyLower l) = pyLower l := by
  simp [pyLower, List.map_map, Function.comp, toLower_toLower]

theorem normalizeExt_head (e : List Char) : (normalizeExt e).take 1 = ['.'] := by
  unfold normalizeExt
  split
  · rename_i h
    cases e with
    | nil => simp at h
    | cons c t =>
      have hc : c = '.' := by simpa using h
      subst hc
      simp [pyLower, List.take_succ_cons]
  · rfl

theorem toLower_dot : Char.toLower '.' = '.' := by decide

theorem pyLower_normalizeExt (e : List Char) : pyLower (normalizeExt e) = normalizeExt e := by
  unfold normalizeExt
  split
  · exact pyLower_pyLower e
  · simp [pyLower, toLower_dot, List.map_map, Function.comp, toLower_toLower]

theorem normalizeExt_pyLower (e : List Char) : normalizeExt (pyLower e) = normalizeExt e := by
  have hhead : (pyLower e).take 1 = ['.'] ↔ e.take 1 = ['.'] := by
    cases e with
    | nil => simp [pyLower]
    | cons c t => simp [pyLower, List.take_succ_cons, toLower_eq_dot]
  unfold normalizeExt
  by_cases h : e.take 1 = ['.']
  · rw [if_pos h, if_pos (hhead.mpr h), pyLower_pyLower]
  · rw [if_neg h, if_neg (fun hx => h (hhead.mp hx)), pyLower_pyLower]

theorem processFile_skippedExt_iff (pol : Policy) (rel fname : List Char) (sz : Option Nat)
    (rd : Except (List Char) (List Char)) :
    processFile pol rel fname sz rd = FileEvent.skippedExt rel (pyLower (splitextExt fname))
      ↔ pyLower (splitextExt fname) ∈ pol.excluded := by
  simp only [processFile]
  split
  · rename_i hc
    exact iff_of_true rfl hc.2
  · rename_i hc
    have hmem : pyLower (splitextExt fname) ∉ pol.excluded := by
      intro hm
      apply hc
      constructor
      · intro h0
        rw [h0] at hm
        simp at hm
      · exact hm
    refine iff_of_false ?_ hmem
    intro h
    split at h
    · simp at h
    · split at h
      · simp at h
      · split at h <;> simp at h

/-- C5: every user-supplied excluded extension is normalized before any
comparison to be lower-cased and to start with a dot (prefixing one when
missing); a file is skipped by the extension check exactly when its
lower-cased extension is a member of the normalized set (lower-casing
either side again changes nothing, so matching is case-insensitive on both
sides); and the extension decision is the same for every size configuration
and stat outcome, i.e. it is taken before the size check. -/
theorem excluded_extension_normalization (raw : List (List Char)) (e rel fname : List Char)
    (sz : Option Nat) (rd : Except (List Char) (List Char)) (mb : Option ℚ) :
    (normalizeExt e).take 1 = ['.']
    ∧ pyLower (normalizeExt e) = normalizeExt e
    ∧ normalizeExt (pyLower e) = normalizeExt e
    ∧ (processFile ⟨normalizeExts raw, mb⟩ rel fname sz rd
        = FileEvent.skippedExt rel (pyLower (splitextExt fname))
      ↔ pyLower (splitextExt fname) ∈ normalizeExts raw) := by
  exact ⟨normalizeExt_head e, pyLower_normalizeExt e, normalizeExt_pyLower e,
    processFile_skippedExt_iff ⟨normalizeExts raw, mb⟩ rel fname sz rd⟩

/-- C5 witness: with `--exclude-ext lOg` supplied without a dot and in mixed
case, the file `b.LoG` is skipped by the extension check. -/
theorem excluded_extension_normalization_witness :
    processFile ⟨normalizeExts [['l', 'O', 'g']], none⟩ ['x'] ['b', '.', 'L', 'o', 'G']
        none (Except.ok [])
      = FileEvent.skippedExt ['x'] (pyLower (splitextExt ['b', '.', 'L', 'o', 'G'])) :=
  (excluded_extension_normalization [['l', 'O', 'g']] [] ['x'] ['b', '.', 'L', 'o', 'G']
    none (Except.ok []) none).2.2.2.mpr (by decide)

/-- C6: with a configured maximum of `m` megabytes, a file that passed the
extension check and whose stat succeeds is skipped exactly when its byte
size strictly exceeds `m * 1024 * 1024` (at or below the limit it is
written); a file whose stat fails is skipped as a stat failure; with no
configured maximum no file is ever skipped for size. -/
theorem size_limit_check (excl : List (List Char)) (m : ℚ) (rel fname : List Char)
    (s : Nat) (sz : Option Nat) (rd : Except (List Char) (List Char))
    (hext : ¬(excl ≠ [] ∧ pyLower (splitextExt fname) ∈ excl)) :
    (processFile ⟨excl, some m⟩ rel fname (some s) rd = FileEvent.skippedSize rel s
       ↔ m * 1024 * 1024 < (s : ℚ))
    ∧ (¬(m * 1024 * 1024 < (s : ℚ)) →
        processFile ⟨excl, some m⟩ rel fname (some s) rd = FileEvent.written rel rd)
    ∧ processFile ⟨excl, some m⟩ rel fname none rd = FileEvent.statFailed rel
    ∧ processFile ⟨excl, none⟩ rel fname sz rd = FileEvent.written rel rd := by
  have h3 : processFile ⟨excl, some m⟩ rel fname (some s) rd =
      if (m * 1024 * 1024 : ℚ) < (s : ℚ) then FileEvent.skippedSize rel s
      else FileEvent.written rel rd := by
    simp only [processFile, if_neg hext]
  refine ⟨?_, ?_, by simp only [processFile, if_neg hext], by simp only [processFile, if_neg hext]⟩
  · rw [h3]
    constructor
    · intro h
      by_contra hq
      rw [if_neg hq] at h
      simp at h
    · intro hq
      rw [if_pos hq]
  · intro hq
    rw [h3, if_neg hq]

/-- C6 witness: a 2-byte limit (2/1048576 MB) skips a 10-byte file and
writes a 2-byte file. -/
theorem size_limit_check_witness :
    processFile ⟨[], some (2 / 1048576)⟩ ['f'] ['f'] (some 10) (Except.ok [])
        = FileEvent.skippedSize ['f'] 10
    ∧ processFile ⟨[], some (2 / 1048576)⟩ ['g'] ['g'] (some 2) (Except.ok [])
        = FileEvent.written ['g'] (Except.ok []) := by
  constructor
  · exact (size_limit_check [] (2 / 1048576) ['f'] ['f'] 10 none (Except.ok [])
      (by simp)).1.mpr (by norm_num)
  · exact (size_limit_check [] (2 / 1048576) ['g'] ['g'] 2 none (Except.ok [])
      (by simp)).2.1 (by norm_num)

/-- C10: a file whose name gives an empty splitext extension (a name with
no dot, or a dotfile whose only dot is the leading one) is never skipped by
the extension check for any user-supplied exclusion list, because every
normalized excluded extension is nonempty (it starts with a dot). -/
theorem empty_extension_never_excluded (raw : List (List Char)) (mb : Option ℚ)
    (rel fname : List Char) (sz : Option Nat) (rd : Except (List Char) (List Char))
    (h : splitextExt fname = []) :
    (∀ e, normalizeExt e ≠ [])
    ∧ isSkippedExt (processFile ⟨normalizeExts raw, mb⟩ rel fname sz rd) = false := by
  have hne : ∀ e : List Char, normalizeExt e ≠ [] := by
    intro e he
    have h2 := normalizeExt_head e
    rw [he] at h2
    simp at h2
  refine ⟨hne, ?_⟩
  have hfext : pyLower (splitextExt fname) = [] := by
    rw [h]
    rfl
  have hnm : pyLower (splitextExt fname) ∉ normalizeExts raw := by
    rw [hfext]
    intro hm
    rcases List.mem_map.mp hm with ⟨e0, _, he0⟩
    exact hne e0 he0
  have hcond : ¬(normalizeExts raw ≠ [] ∧ pyLower (splitextExt fname) ∈ normalizeExts raw) := by
    tauto
  rcases mb with _ | m
  · simp [processFile, if_neg hcond, isSkippedExt]
  · rcases sz with _ | s
    · simp [processFile, if_neg hcond, isSkippedExt]
    · simp only [processFile, if_neg hcond]
      split <;> simp [isSkippedExt]

/-- C10 witness: `Makefile` and `.gitignore` are never skipped by the
extension check, here against the normalized exclusion list for `txt`. -/
theorem empty_extension_never_excluded_witness :
    isSkippedExt (processFile ⟨normalizeExts [['t', 'x', 't']], none⟩ ['m']
        ['M', 'a', 'k', 'e', 'f', 'i', 'l', 'e'] none (Except.ok [])) = false
    ∧ isSkippedExt (processFile ⟨normalizeExts [['t', 'x', 't']], none⟩ ['g']
        ['.', 'g', 'i', 't', 'i', 'g', 'n', 'o', 'r', 'e'] none (Except.ok [])) = false := by
  constructor
  · exact (empty_extension_never_excluded [['t', 'x', 't']] none ['m']
      ['M', 'a', 'k', 'e', 'f', 'i', 'l', 'e'] none (Except.ok []) (by decide)).2
  · exact (empty_extension_never_excluded [['t', 'x', 't']] none ['g']
      ['.', 'g', 'i', 't', 'i', 'g', 'n', 'o', 'r', 'e'] none (Except.ok []) (by decide)).2

theorem foldl_write_append (pol : Policy) (l : List VisitedFile) (init : List Char) :
    l.foldl (fun out vf => out ++ eventOutput (processVF pol vf)) init
      = init ++ l.flatMap (fun vf => eventOutput (processVF pol vf)) := by
  induction l generalizing init with
  | nil => simp
  | cons v vs ih => simp [ih, List.append_assoc]

theorem runOutput_eq_flatMap (pol : Policy) (cs : List FSTree) :
    runOutput pol cs = (walk [] cs).flatMap (fun vf => eventOutput (processVF pol vf)) := by
  simp [runOutput, foldl_write_append]

theorem flatMap_eventOutput_eq (evs : List FileEvent) :
    evs.flatMap eventOutput
      = (evs.filterMap (fun ev => match ev with
          | FileEvent.written rel body => some (rel, body)
          | _ => none)).flatMap (fun p => fileBlock p.1 p.2) := by
  induction evs with
  | nil => rfl
  | cons ev evs ih =>
    cases ev <;> simp [eventOutput, fileBlock, ih, List.append_assoc]

/-- C1: the contents file of a run is exactly the concatenation, one block
per written file, of blocks of the fixed shape: a separator line of 48 `=`
characters, the header line `File: <relative path>`, another separator
line, the content section (decoded text, or the error placeholder), and
exactly two trailing newline characters closing the block — the same shape
for every written file, placeholders included. -/
theorem contents_block_shape (pol : Policy) (cs : List FSTree) :
    runOutput pol cs = (writtenList pol cs).flatMap (fun p => fileBlock p.1 p.2)
    ∧ sepLine.length = 48
    ∧ sepLine.all (fun c => c = '=') = true
    ∧ ∀ rel body, fileBlock rel body
        = sepLine ++ ['\n'] ++ ("File: ".data ++ rel ++ ['\n']) ++ sepLine ++ ['\n']
            ++ bodyText body ++ ['\n', '\n'] := by
  refine ⟨?_, by decide, by decide, fun rel body => rfl⟩
  rw [runOutput_eq_flatMap, writtenList]
  rw [← flatMap_eventOutput_eq]
  simp [List.flatMap_map, Function.comp]

theorem walk_cons_file (acc : List (List Char)) (n : List Char) (sz : Option Nat)
    (rd : Except (List Char) (List Char)) (rest : List FSTree) :
    walk acc (FSTree.file n sz rd :: rest) = ⟨acc, n, sz, rd⟩ :: walk acc rest := by
  conv_lhs => rw [walk]
  conv_rhs => rw [walk]
  simp [isDirT, List.filterMap_cons, List.filter_cons]

/-- C2: for a file whose open or UTF-8 decode fails, the content section of
its block is exactly the one-line placeholder `[!] Error reading file:
<message>`; the failed read carries only the exception message (Python's
`read()` returns the whole text or raises, so no prefix of the file's
content exists to be written); and the walk continues: the run's output is
the failing file's own event output followed, unchanged, by the output for
the remaining tree. -/
theorem decode_error_placeholder (pol : Policy) (acc : List (List Char)) (n : List Char)
    (sz : Option Nat) (msg : List Char) (rest : List FSTree) :
    bodyText (Except.error msg) = "[!] Error reading file: ".data ++ msg ++ ['\n']
    ∧ walk acc (FSTree.file n sz (Except.error msg) :: rest)
        = ⟨acc, n, sz, Except.error msg⟩ :: walk acc rest
    ∧ runOutput pol (FSTree.file n sz (Except.error msg) :: rest)
        = eventOutput (processVF pol ⟨[], n, sz, Except.error msg⟩) ++ runOutput pol rest := by
  refine ⟨rfl, walk_cons_file acc n sz (Except.error msg) rest, ?_⟩
  rw [runOutput_eq_flatMap, runOutput_eq_flatMap, walk_cons_file]
  simp [List.flatMap_cons]

theorem mem_removeFirstGit (l : List FSTree) (a : FSTree) (ha : a ∈ removeFirstGit l) :
    a ∈ l := by
  induction l with
  | nil => simp [removeFirstGit] at ha
  | cons x xs ih =>
    simp only [removeFirstGit] at ha
    split at ha
    · exact List.mem_cons_of_mem _ ha
    · rcases List.mem_cons.mp ha with h1 | h1
      · exact h1 ▸ List.mem_cons_self _ _
      · exact List.mem_cons_of_mem _ (ih h1)

theorem entryCount_le_of_mem (a : FSTree) (l : List FSTree) (ha : a ∈ l) :
    entryCount a ≤ entryCountList l := by
  induction l with
  | nil => simp at ha
  | cons x xs ih =>
    rcases List.mem_cons.mp ha with h1 | h1
    · subst h1
      simp only [entryCountList]
      omega
    · have := ih h1
      simp only [entryCountList]
      omega

theorem wfForest_names_nodup (cs : List FSTree) (h : wfForest cs = true) :
    (cs.map FSTree.name).Nodup := by
  induction cs with
  | nil => simp
  | cons c cs ih =>
    cases c with
    | file n sz rd =>
      simp only [wfForest, Bool.and_eq_true, Bool.not_eq_true'] at h
      refine List.nodup_cons.mpr ⟨?_, ih h.2⟩
      intro hm
      rw [show FSTree.name (FSTree.file n sz rd) = n from rfl] at hm
      have h2 : ((cs.map FSTree.name).contains n) = true :=
        List.contains_iff_exists_mem_beq.mpr ⟨n, hm, by simp⟩
      rw [h2] at h
      exact Bool.noConfusion h.1
    | dir n ds =>
      simp only [wfForest, Bool.and_eq_true, Bool.not_eq_true'] at h
      refine List.nodup_cons.mpr ⟨?_, ih h.2⟩
      intro hm
      rw [show FSTree.name (FSTree.dir n ds) = n from rfl] at hm
      have h2 : ((cs.map FSTree.name).contains n) = true :=
        List.contains_iff_exists_mem_beq.mpr ⟨n, hm, by simp⟩
      rw [h2] at h
      exact Bool.noConfusion h.1.1

theorem removeFirstGit_no_git (l : List FSTree) (h : (l.map FSTree.name).Nodup)
    (a : FSTree) (ha : a ∈ removeFirstGit l) : a.name ≠ ".git".data := by
  induction l with
  | nil => simp [removeFirstGit] at ha
  | cons d ds ih =>
    rcases List.nodup_cons.mp h with ⟨hd, hds⟩
    simp only [removeFirstGit] at ha
    split at ha
    · rename_i hgit
      intro hne
      apply hd
      have h3 : d.name = a.name := by rw [hgit, hne]
      rw [h3]
      exact List.mem_map_of_mem _ ha
    · rename_i hgit
      rcases List.mem_cons.mp ha with h1 | h1
      · rw [h1]
        exact hgit
      · exact ih hds h1

theorem wfForest_of_mem_dir (cs : List FSTree) (n : List Char) (ds : List FSTree)
    (h : wfForest cs = true) (hm : FSTree.dir n ds ∈ cs) : wfForest ds = true := by
  induction cs with
  | nil => simp at hm
  | cons c cs ih =>
    rcases List.mem_cons.mp hm with h1 | h1
    · subst h1
      simp only [wfForest, Bool.and_eq_true] at h
      exact h.1.2
    · cases c with
      | file n2 sz rd =>
        simp only [wfForest, Bool.and_eq_true] at h
        exact ih h.2 h1
      | dir n2 ds2 =>
        simp only [wfForest, Bool.and_eq_true] at h
        exact ih h.2 h1

theorem walk_dirs_no_git (N : Nat) :
    ∀ (cs : List FSTree) (acc : List (List Char)), entryCountList cs ≤ N →
      wfForest cs = true → ∀ vf ∈ walk acc cs, ∀ d ∈ vf.vdirs, d ∈ acc ∨ d ≠ ".git".data := by
  induction N with
  | zero =>
    intro cs acc hN hwf vf hvf d hd
    cases cs with
    | nil =>
      rw [walk] at hvf
      simp [removeFirstGit] at hvf
    | cons c cs2 =>
      exfalso
      have h1 : 1 ≤ entryCount c := by cases c <;> simp [entryCount]
      simp only [entryCountList] at hN
      omega
  | succ N ih =>
    intro cs acc hN hwf vf hvf d hd
    rw [walk] at hvf
    rcases List.mem_append.mp hvf with hf | hdir
    · rcases List.mem_filterMap.mp hf with ⟨c, hc, heq⟩
      cases c with
      | file n2 sz rd =>
        simp only [Option.some.injEq] at heq
        rw [← heq] at hd
        exact Or.inl hd
      | dir n2 ds2 => simp at heq
    · rcases List.mem_flatMap.mp hdir with ⟨⟨c, hc⟩, _hca, hvfc⟩
      cases c with
      | file n2 sz rd => simp at hvfc
      | dir n2 ds2 =>
        have hc2 : FSTree.dir n2 ds2 ∈ cs :=
          List.mem_of_mem_filter (mem_removeFirstGit _ _ hc)
        have hno : (FSTree.dir n2 ds2).name ≠ ".git".data := by
          apply removeFirstGit_no_git (cs.filter isDirT) ?_ _ hc
          exact (wfForest_names_nodup cs hwf).sublist ((List.filter_sublist cs).map FSTree.name)
        have hwf2 : wfForest ds2 = true := wfForest_of_mem_dir cs n2 ds2 hwf hc2
        have hsz : entryCountList ds2 ≤ N := by
          have := entryCount_le_of_mem _ _ hc2
          simp only [entryCount] at this
          omega
        rcases ih ds2 (acc ++ [n2]) hsz hwf2 vf hvfc d hd with h1 | h1
        · rcases List.mem_append.mp h1 with h2 | h2
          · exact Or.inl h2
          · simp only [List.mem_singleton] at h2
            subst h2
            exact Or.inr hno
        · exact Or.inr h1

/-- C7: in a well-formed tree (distinct sibling names, as on a real
filesystem) no directory named `.git`, at any depth, is ever entered by the
content walk: every visited file's directory path is free of `.git`, so no
file below a `.git` directory can contribute a block, a skip message, or a
count (all of which are produced only from visited files). -/
theorem git_dir_pruned (cs : List FSTree) (h : wfForest cs = true) :
    ∀ vf ∈ walk [] cs, ".git".data ∉ vf.vdirs := by
  intro vf hvf hmem
  rcases walk_dirs_no_git (entryCountList cs) cs [] le_rfl h vf hvf _ hmem with h1 | h1
  · simp at h1
  · exact h1 rfl

/-- C7 witness: the sample tree has a top-level `.git` and a nested
`src/.git`; it is well formed and no visited file lies under either. -/
theorem git_dir_pruned_witness :
    wfForest gitSampleTree = true
    ∧ ∀ vf ∈ walk [] gitSampleTree, ".git".data ∉ vf.vdirs := by
  have hwf : wfForest gitSampleTree = true := by
    simp [gitSampleTree, wfForest, FSTree.name]
  exact ⟨hwf, git_dir_pruned gitSampleTree hwf⟩

theorem splitSlash_ne_nil (u : List Char) : splitSlash u ≠ [] := by
  cases u with
  | nil => simp [splitSlash]
  | cons c cs =>
    simp only [splitSlash]
    split
    · simp
    · split <;> simp

theorem lastOf_cons (x : List Char) (ys : List (List Char)) (h : ys ≠ []) :
    lastOf (x :: ys) = lastOf ys := by
  cases ys with
  | nil => exact absurd rfl h
  | cons y ys2 => rfl

theorem takeWhile_append_slash (xs : List Char) :
    ((xs ++ ['/']).takeWhile (fun c => c ≠ '/')) = xs.takeWhile (fun c => c ≠ '/') := by
  induction xs with
  | nil => rfl
  | cons x xs ih =>
    by_cases hx : x = '/'
    · subst hx
      rw [List.cons_append, List.takeWhile_cons, List.takeWhile_cons]
      simp
    · have hcb : (decide (x ≠ '/')) = true := by simpa using hx
      rw [List.cons_append, List.takeWhile_cons, List.takeWhile_cons, if_pos hcb, if_pos hcb, ih]

theorem takeWhile_of_no_slash (v : List Char) (h : '/' ∉ v) :
    v.takeWhile (fun c => c ≠ '/') = v := by
  induction v with
  | nil => rfl
  | cons c cs ih =>
    simp only [List.mem_cons, not_or] at h
    have hc : c ≠ '/' := fun hx => h.1 hx.symm
    have hcb : (decide (c ≠ '/')) = true := by simpa using hc
    rw [List.takeWhile_cons, if_pos hcb, ih h.2]

theorem takeWhile_append_of_mem (xs ys : List Char) (h : '/' ∈ xs) :
    ((xs ++ ys).takeWhile (fun c => c ≠ '/')) = xs.takeWhile (fun c => c ≠ '/') := by
  induction xs with
  | nil => simp at h
  | cons x xs ih =>
    by_cases hx : x = '/'
    · subst hx
      simp [List.takeWhile_cons]
    · rcases List.mem_cons.mp h with h1 | h1
      · exact absurd h1.symm hx
      · have hcb : (decide (x ≠ '/')) = true := by simpa using hx
        rw [List.cons_append, List.takeWhile_cons, List.takeWhile_cons, if_pos hcb, if_pos hcb,
          ih h1]

theorem splitSlash_of_no_slash (v : List Char) (h : '/' ∉ v) : splitSlash v = [v] := by
  induction v with
  | nil => rfl
  | cons c cs ih =>
    simp only [List.mem_cons, not_or] at h
    have hc : ¬c = '/' := fun hx => h.1 hx.symm
    simp only [splitSlash, if_neg hc]
    rw [ih h.2]

theorem splitSlash_two_le (v : List Char) (h : '/' ∈ v) : 2 ≤ (splitSlash v).length := by
  induction v with
  | nil => simp at h
  | cons c cs ih =>
    by_cases hc : c = '/'
    · subst hc
      have h1 : splitSlash cs ≠ [] := splitSlash_ne_nil cs
      have h2 : 1 ≤ (splitSlash cs).length := List.length_pos.mpr h1
      simp [splitSlash]
      omega
    · rcases List.mem_cons.mp h with h1 | h1
      · exact absurd h1.symm hc
      · have h2 := ih h1
        simp only [splitSlash, if_neg hc]
        cases hsp : splitSlash cs with
        | nil => exact absurd hsp (splitSlash_ne_nil cs)
        | cons s rest =>
          rw [hsp] at h2
          show 2 ≤ ((c :: s) :: rest).length
          simp only [List.length_cons] at h2 ⊢
          omega

theorem lastOf_splitSlash (u : List Char) : lastOf (splitSlash u) = lastSegment u := by
  induction u with
  | nil => rfl
  | cons c cs ih =>
    by_cases hc : c = '/'
    · subst hc
      have hred : splitSlash ('/' :: cs) = [] :: splitSlash cs := by
        simp [splitSlash]
      rw [hred, lastOf_cons _ _ (splitSlash_ne_nil cs), ih]
      simp only [lastSegment, List.reverse_cons]
      rw [takeWhile_append_slash]
    · simp only [splitSlash, if_neg hc]
      by_cases hs : '/' ∈ cs
      · cases hsp : splitSlash cs with
        | nil => exact absurd hsp (splitSlash_ne_nil cs)
        | cons s rest =>
          have h2 := splitSlash_two_le cs hs
          rw [hsp] at h2
          have hrest : rest ≠ [] := by
            intro h0
            rw [h0] at h2
            simp at h2
          show lastOf ((c :: s) :: rest) = lastSegment (c :: cs)
          rw [lastOf_cons _ _ hrest]
          have hih : lastOf (s :: rest) = lastSegment cs := by
            rw [← hsp]
            exact ih
          rw [lastOf_cons _ _ hrest] at hih
          rw [hih]
          simp only [lastSegment, List.reverse_cons]
          rw [takeWhile_append_of_mem _ _ (List.mem_reverse.mpr hs)]
      · rw [splitSlash_of_no_slash cs hs]
        show lastOf [c :: cs] = lastSegment (c :: cs)
        have hmem : '/' ∉ cs.reverse ++ [c] := by
          intro hm
          rcases List.mem_append.mp hm with h1 | h1
          · exact hs (List.mem_reverse.mp h1)
          · simp only [List.mem_singleton] at h1
            exact hc h1.symm
        simp only [lastSegment, List.reverse_cons]
        rw [takeWhile_of_no_slash _ hmem]
        simp [lastOf]

/-- C9: for every source location string, get_repo_name is exactly: strip
the trailing slashes, take the last `/`-separated path segment (stated the
way the specification words it, as the characters after the last remaining
slash), and strip one trailing `.git`; on the specification's example it
yields `repo`. -/
theorem repo_name_from_url (url : List Char) :
    get_repo_name url = stripDotGit (lastSegment (rstripSlashes url))
    ∧ get_repo_name "https://host/user/repo.git".data = "repo".data := by
  constructor
  · simp only [get_repo_name, lastOf_splitSlash]
  · decide
